import Mathlib

/-!
Verification of the runbook-copilot ingestion and hybrid-retrieval pipeline.

Shallow embedding of the core algorithms of the repository:
- the hybrid retriever (lib/retrieval.ts: extractKeywords, computeKeywordScore,
  searchRunbooks dedupe + rerank),
- the chunkers (lib/indexing.ts: chunkText, chunkTextSimple,
  chunkMarkdownWithHeadings),
- the embedding batch orchestration and its count check (lib/indexing.ts
  createEmbeddingsBatch together with the upload route embed stage),
- the document store transitions (insertDocument upsert, deleteChunksForDocument,
  insertChunksBulk, per schema.sql),
- the upload route extract stage and per-request chunk cap.

Strings are modelled as Lean String or List Char; JavaScript numbers as Nat/Int;
float vector distances as rationals (only their ordering matters to the code);
the external OpenAI and pdf-parse collaborators as oracle parameters.
-/

namespace Runbook

/-! ## Hybrid retriever (lib/retrieval.ts) -/

/-- A character counted as a keyword character by the regex [^a-z0-9]+ used in
extractKeywords (the query is lowercased first, so only lowercase ranges occur). -/
def isTokenChar (c : Char) : Bool :=
  (decide ('a' ≤ c) && decide (c ≤ 'z')) || (decide ('0' ≤ c) && decide (c ≤ '9'))

/-- JS String.prototype.toLowerCase, character-wise (the texts of interest are
ASCII, where the two notions of lowercasing agree). -/
def jsToLower (s : String) : String :=
  String.mk (s.data.map Char.toLower)

/-- Worker for splitRuns: cur is the reversed current token, inSep records that
the previous character was part of a separator run (so further separator
characters extend the same run instead of producing empty pieces). -/
def splitRunsAux : List Char → List Char → Bool → List (List Char)
  | [], cur, _ => [cur.reverse]
  | c :: cs, cur, inSep =>
    if isTokenChar c then splitRunsAux cs (c :: cur) false
    else if inSep then splitRunsAux cs cur true
    else cur.reverse :: splitRunsAux cs [] true

/-- JS String.prototype.split on the regex [^a-z0-9]+ : maximal runs of
non-token characters act as separators; a leading or trailing separator run
produces an empty piece, as in JavaScript. -/
def splitRuns (l : List Char) : List (List Char) :=
  splitRunsAux l [] false

/-- extractKeywords from lib/retrieval.ts: lowercase, split on non-alphanumerics,
keep tokens of length at least 4, dedupe keeping first occurrences
(Array.from(new Set(...))), cap at 8 (slice(0, 8)). -/
def extractKeywords (queryText : String) : List String :=
  let tokens := ((splitRuns (jsToLower queryText).data).map String.mk).filter
    (fun t => 4 ≤ t.length)
  tokens.eraseDups.take 8

/-- JS String.prototype.includes: pat occurs as a contiguous substring of the
text, checked at every starting position. -/
def containsSub (pat : List Char) : List Char → Bool
  | [] => pat.isEmpty
  | c :: t => pat.isPrefixOf (c :: t) || containsSub pat t

/-- computeKeywordScore from lib/retrieval.ts: the number of keywords occurring
as substrings (String.prototype.includes) of the lowercased text. -/
def computeKeywordScore (text : String) (keywords : List String) : Nat :=
  let lowerText := jsToLower text
  (keywords.filter (fun keyword => containsSub keyword.data lowerText.data)).length

/-- A candidate row as returned by the vector search SQL query in searchRunbooks:
chunk id, text, filename, chunk index and cosine distance. The float distance is
modelled as a rational, only its ordering matters to the rerank. -/
structure Row where
  id : String
  text : String
  filename : String
  chunk_index : Nat
  distance : ℚ
deriving DecidableEq, Repr

/-- An entry of the candidates array built by searchRunbooks. -/
structure Candidate where
  id : String
  text : String
  filename : String
  chunkIndex : Nat
  distance : ℚ
  keywordScore : Nat
deriving DecidableEq, Repr

/-- The dedupe key of searchRunbooks: the template literal filename:chunk_index. -/
def chunkKey (filename : String) (chunkIndex : Nat) : String :=
  filename ++ ":" ++ toString chunkIndex

/-- State of the dedupe-and-score loop of searchRunbooks: the seenIds set, the
seenChunks set (JS Sets, modelled as lists queried by membership) and the
candidates array. -/
structure DedupState where
  seenIds : List String
  seenChunks : List String
  candidates : List Candidate
deriving Repr

/-- One iteration of the dedupe-and-score loop of searchRunbooks. -/
def dedupStep (keywords : List String) (st : DedupState) (row : Row) : DedupState :=
  let key := chunkKey row.filename row.chunk_index
  if row.id ∈ st.seenIds ∨ key ∈ st.seenChunks then st
  else
    { seenIds := row.id :: st.seenIds
      seenChunks := key :: st.seenChunks
      candidates := st.candidates ++
        [{ id := row.id, text := row.text, filename := row.filename
           chunkIndex := row.chunk_index, distance := row.distance
           keywordScore := computeKeywordScore row.text keywords }] }

/-- The rerank comparator of searchRunbooks as a total preorder: keywordScore
descending, tie-broken by distance ascending. a is ordered no later than b. -/
def rerankLE (a b : Candidate) : Prop :=
  b.keywordScore < a.keywordScore ∨
    (a.keywordScore = b.keywordScore ∧ a.distance ≤ b.distance)

instance : DecidableRel rerankLE := fun a b =>
  inferInstanceAs (Decidable (b.keywordScore < a.keywordScore ∨
    (a.keywordScore = b.keywordScore ∧ a.distance ≤ b.distance)))

instance : IsTotal Candidate rerankLE where
  total a b := by
    unfold rerankLE
    rcases Nat.lt_trichotomy a.keywordScore b.keywordScore with h | h | h
    · exact Or.inr (Or.inl h)
    · rcases le_total a.distance b.distance with hd | hd
      · exact Or.inl (Or.inr ⟨h, hd⟩)
      · exact Or.inr (Or.inr ⟨h.symm, hd⟩)
    · exact Or.inl (Or.inl h)

instance : IsTrans Candidate rerankLE where
  trans a b c hab hbc := by
    unfold rerankLE at *
    rcases hab with h1 | ⟨e1, d1⟩
    · rcases hbc with h2 | ⟨e2, d2⟩
      · exact Or.inl (h2.trans h1)
      · exact Or.inl (e2 ▸ h1)
    · rcases hbc with h2 | ⟨e2, d2⟩
      · exact Or.inl (e1 ▸ h2)
      · exact Or.inr ⟨e1.trans e2, d1.trans d2⟩

/-- The pure part of searchRunbooks from lib/retrieval.ts, given the candidate
rows the store returned for the query embedding: dedupe by chunk id and by
filename:chunkIndex key, score by keyword overlap, sort by keywordScore
descending then distance ascending (Array.prototype.sort is stable and the
comparator is a total preorder, so the result is the stable sort, modelled by
insertion sort), and return the first topK. -/
def searchRunbooks (queryText : String) (topK : Nat) (rows : List Row) :
    List Candidate :=
  let keywords := extractKeywords queryText
  let st := rows.foldl (dedupStep keywords) ⟨[], [], []⟩
  (List.insertionSort rerankLE st.candidates).take topK

/-! ## Chunkers (lib/indexing.ts) -/

/-- JS String.prototype.trim on a character list (whitespace stripped from both
ends). -/
def trimChars (l : List Char) : List Char :=
  ((l.dropWhile Char.isWhitespace).reverse.dropWhile Char.isWhitespace).reverse

/-- JS String.prototype.slice with possibly negative or out-of-range indices:
negative indices count from the end, everything is clamped into range. -/
def jsSlice (l : List Char) (a b : Int) : List Char :=
  let n : Int := l.length
  let a2 := if a < 0 then max (n + a) 0 else min a n
  let b2 := if b < 0 then max (n + b) 0 else min b n
  (l.take b2.toNat).drop a2.toNat

/-- JS String.prototype.lastIndexOf for a single character: the largest index
holding the character, or -1 when absent. -/
def lastIndexOfC (ch : Char) : List Char → Int
  | [] => -1
  | c :: cs =>
    let r := lastIndexOfC ch cs
    if 0 ≤ r then r + 1 else if c = ch then 0 else -1

/-- Result of one iteration of the chunkTextSimple while loop: the chunk sliced
out of the text and the next value of start. -/
structure SimpleIter where
  chunk : List Char
  nextStart : Int
deriving Repr

/-- One iteration of the chunkTextSimple while loop of lib/indexing.ts at window
position start, exactly as written in the source: lastIndexOf is taken on the
window (so breakPoint is window-relative) while the threshold of the guard is
start + maxChunkSize * 0.5 (text-absolute). -/
def simpleIter (text : List Char) (maxChunkSize overlap : Nat) (start : Int) :
    SimpleIter :=
  let len : Int := text.length
  let en : Int := min (start + (maxChunkSize : Int)) len
  let chunk := jsSlice text start en
  if en < len then
    let lastPeriod := lastIndexOfC '.' chunk
    let lastNewline := lastIndexOfC '\n' chunk
    let breakPoint := max lastPeriod lastNewline
    if 2 * breakPoint > 2 * start + (maxChunkSize : Int) then
      { chunk := jsSlice text start (start + breakPoint + 1)
        nextStart := start + breakPoint + 1 - (overlap : Int) }
    else
      { chunk := chunk, nextStart := en - (overlap : Int) }
  else
    { chunk := chunk, nextStart := en }

/-- The chunkTextSimple while loop, fuel-indexed: each round pushes the trimmed
chunk when non-empty and advances start; none means the fuel ran out with start
still short of the end of the text (the JS loop would still be running). -/
def chunkSimpleGo (text : List Char) (maxChunkSize overlap : Nat) :
    Nat → Int → List (List Char) → Option (List (List Char))
  | 0, start, acc => if start < (text.length : Int) then none else some acc
  | fuel + 1, start, acc =>
    if start < (text.length : Int) then
      let it := simpleIter text maxChunkSize overlap start
      let acc2 := if (trimChars it.chunk).length > 0 then acc ++ [trimChars it.chunk]
        else acc
      chunkSimpleGo text maxChunkSize overlap fuel it.nextStart acc2
    else some acc

/-- chunkTextSimple from lib/indexing.ts, run with text.length + 1 rounds of
fuel (enough whenever start strictly increases each iteration, since the loop
stops once start reaches text.length). -/
def chunkTextSimple (text : List Char) (maxChunkSize overlap : Nat) :
    Option (List (List Char)) :=
  chunkSimpleGo text maxChunkSize overlap (text.length + 1) 0 []

/-- One iteration of the sentence-boundary rule as the specification words it:
break at the last period or newline when it lies beyond 50 percent of the
window, that is, when the window-relative breakPoint exceeds maxChunkSize * 0.5.
Identical to simpleIter except for that guard; kept for comparison against the
source behaviour. -/
def simpleIterSpec (text : List Char) (maxChunkSize overlap : Nat) (start : Int) :
    SimpleIter :=
  let len : Int := text.length
  let en : Int := min (start + (maxChunkSize : Int)) len
  let chunk := jsSlice text start en
  if en < len then
    let lastPeriod := lastIndexOfC '.' chunk
    let lastNewline := lastIndexOfC '\n' chunk
    let breakPoint := max lastPeriod lastNewline
    if 2 * breakPoint > (maxChunkSize : Int) then
      { chunk := jsSlice text start (start + breakPoint + 1)
        nextStart := start + breakPoint + 1 - (overlap : Int) }
    else
      { chunk := chunk, nextStart := en - (overlap : Int) }
  else
    { chunk := chunk, nextStart := en }

/-- The loop of the specification-worded sentence-boundary chunker. -/
def chunkSimpleGoSpec (text : List Char) (maxChunkSize overlap : Nat) :
    Nat → Int → List (List Char) → Option (List (List Char))
  | 0, start, acc => if start < (text.length : Int) then none else some acc
  | fuel + 1, start, acc =>
    if start < (text.length : Int) then
      let it := simpleIterSpec text maxChunkSize overlap start
      let acc2 := if (trimChars it.chunk).length > 0 then acc ++ [trimChars it.chunk]
        else acc
      chunkSimpleGoSpec text maxChunkSize overlap fuel it.nextStart acc2
    else some acc

/-- The specification-worded sentence-boundary chunker. -/
def chunkTextSimpleSpec (text : List Char) (maxChunkSize overlap : Nat) :
    Option (List (List Char)) :=
  chunkSimpleGoSpec text maxChunkSize overlap (text.length + 1) 0 []

/-- Number of leading # characters of a line. -/
def countLeadHashes : List Char → Nat
  | [] => 0
  | c :: cs => if c = '#' then countLeadHashes cs + 1 else 0

/-- The Markdown heading test of chunkMarkdownWithHeadings, the regex 1 to 6
leading # characters followed by a whitespace character, anchored at the start
of the line (a line with 7 or more leading hashes fails the test, because the
character after at most 6 hashes is another hash, not whitespace). -/
def isHeadingLine (l : List Char) : Bool :=
  let n := countLeadHashes l
  decide (1 ≤ n) && decide (n ≤ 6) &&
    (match l.drop n with
     | c :: _ => c.isWhitespace
     | [] => false)

/-- One step of splitting on the newline character, set up as a foldr step so
that every lemma goes through by structural induction. -/
def splitNlStep (c : Char) (acc : List (List Char)) : List (List Char) :=
  if c = '\n' then [] :: acc
  else
    match acc with
    | [] => [[c]]
    | h :: t => (c :: h) :: t

/-- JS String.prototype.split on the newline character. -/
def splitNl (l : List Char) : List (List Char) :=
  l.foldr splitNlStep [[]]

/-- JS Array.prototype.flatten with the newline separator. -/
def joinNl : List (List Char) → List Char
  | [] => []
  | [x] => x
  | x :: y :: ys => x ++ '\n' :: joinNl (y :: ys)

/-- State of the line loop of chunkMarkdownWithHeadings: finished chunks, the
lines of the chunk under construction, and the running character count. -/
structure MdState where
  chunks : List (List Char)
  currentChunk : List (List Char)
  currentSize : Nat
deriving Repr

/-- The body of the line loop of chunkMarkdownWithHeadings for one line. A
heading line with a non-empty current chunk flushes it and starts the new chunk
at the heading with no overlap; otherwise a size overflow flushes the current
chunk and carries the last overlap characters; then the line is appended. The
JS expression joined.slice(-overlapChars) yields the whole string when
overlapChars is zero (slice(-0) is slice(0)), modelled faithfully. -/
def mdStep (maxChunkSize overlap : Nat) (st : MdState) (line : List Char) :
    MdState :=
  let lineSize := line.length + 1
  if isHeadingLine line ∧ st.currentChunk ≠ [] then
    { chunks := st.chunks ++ [trimChars (joinNl st.currentChunk)]
      currentChunk := [line]
      currentSize := lineSize }
  else
    let st1 :=
      if st.currentSize + lineSize > maxChunkSize ∧ st.currentChunk ≠ [] then
        let joined := joinNl st.currentChunk
        let overlapChars := min overlap joined.length
        let overlapText := if overlapChars = 0 then joined
          else joined.drop (joined.length - overlapChars)
        { chunks := st.chunks ++ [trimChars joined]
          currentChunk := if overlapText ≠ [] then [overlapText] else []
          currentSize := if overlapText ≠ [] then overlapText.length else 0 }
      else st
    { chunks := st1.chunks
      currentChunk := st1.currentChunk ++ [line]
      currentSize := st1.currentSize + lineSize }

/-- chunkMarkdownWithHeadings from lib/indexing.ts (the revision imported by the
upload route): fold the line loop over the lines of the text, flush the
remaining chunk, drop empty chunks. -/
def chunkMarkdownWithHeadings (text : List Char) (maxChunkSize overlap : Nat) :
    List (List Char) :=
  let lines := splitNl text
  let final := lines.foldl (mdStep maxChunkSize overlap) ⟨[], [], 0⟩
  let chunks :=
    if final.currentChunk ≠ [] then
      final.chunks ++ [trimChars (joinNl final.currentChunk)]
    else final.chunks
  chunks.filter (fun c => c.length > 0)

/-- chunkText from lib/indexing.ts: dispatch between the simple and the
heading-aware chunker; the default parameters are maxChunkSize = 400 and
overlap = 50, and the upload route calls chunkText with the defaults. -/
def chunkText (text : List Char) (isMarkdown : Bool) (maxChunkSize : Nat := 400)
    (overlap : Nat := 50) : Option (List (List Char)) :=
  if isMarkdown then some (chunkMarkdownWithHeadings text maxChunkSize overlap)
  else chunkTextSimple text maxChunkSize overlap

/-- Two candidates that agree neither on chunk id nor on the
(filename, chunkIndex) pair. -/
def distinctCand (a b : Candidate) : Prop :=
  a.id ≠ b.id ∧ ¬(a.filename = b.filename ∧ a.chunkIndex = b.chunkIndex)

/-- Invariant of the dedupe loop: every emitted candidate has its id and its
chunk key registered in the seen sets, and the emitted candidates are pairwise
distinct on both dedupe keys. -/
def DedupInv (st : DedupState) : Prop :=
  (∀ c ∈ st.candidates,
      c.id ∈ st.seenIds ∧ chunkKey c.filename c.chunkIndex ∈ st.seenChunks) ∧
  st.candidates.Pairwise distinctCand

/-- Failing input for the sentence-boundary rule of chunkTextSimple: fifteen
copies of a, a period, twelve copies of b. With maxChunkSize = 10 and
overlap = 2 the second window starts at 8 and contains the period at
window-relative index 7, beyond 50 percent of the window. -/
def c3FailText : List Char := "aaaaaaaaaaaaaaa.bbbbbbbbbbbb".data

/-! ## Lemmas about the retriever -/

theorem distinctCand_symm : Symmetric distinctCand := by
  intro a b h
  exact ⟨fun e => h.1 e.symm, fun e => h.2 ⟨e.1.symm, e.2.symm⟩⟩

theorem dedupStep_inv (keywords : List String) (st : DedupState) (row : Row)
    (h : DedupInv st) : DedupInv (dedupStep keywords st row) := by
  unfold dedupStep
  by_cases hseen : row.id ∈ st.seenIds ∨ chunkKey row.filename row.chunk_index ∈ st.seenChunks
  · rw [if_pos hseen]
    exact h
  · rw [if_neg hseen]
    push_neg at hseen
    constructor
    · intro c hc
      rcases List.mem_append.mp hc with hold | hnew
      · exact ⟨List.mem_cons_of_mem _ ((h.1 c hold).1),
          List.mem_cons_of_mem _ ((h.1 c hold).2)⟩
      · simp only [List.mem_singleton] at hnew
        subst hnew
        exact ⟨List.mem_cons_self _ _, List.mem_cons_self _ _⟩
    · rw [List.pairwise_append]
      refine ⟨h.2, List.pairwise_singleton _ _, ?_⟩
      intro a ha b hb
      simp only [List.mem_singleton] at hb
      subst hb
      constructor
      · intro hid
        have hid2 : a.id = row.id := hid
        exact hseen.1 (hid2 ▸ (h.1 a ha).1)
      · intro hpair
        have hf : a.filename = row.filename := hpair.1
        have hi : a.chunkIndex = row.chunk_index := hpair.2
        apply hseen.2
        have hkey : chunkKey a.filename a.chunkIndex =
            chunkKey row.filename row.chunk_index := by rw [hf, hi]
        exact hkey ▸ (h.1 a ha).2

theorem foldl_dedup_inv (keywords : List String) :
    ∀ (rows : List Row) (st : DedupState),
      DedupInv st → DedupInv (rows.foldl (dedupStep keywords) st)
  | [], _, h => h
  | row :: rows, st, h =>
    foldl_dedup_inv keywords rows _ (dedupStep_inv keywords st row h)

theorem dedupStep_score (keywords : List String) (st : DedupState) (row : Row)
    (h : ∀ c ∈ st.candidates, c.keywordScore = computeKeywordScore c.text keywords) :
    ∀ c ∈ (dedupStep keywords st row).candidates,
      c.keywordScore = computeKeywordScore c.text keywords := by
  unfold dedupStep
  by_cases hseen : row.id ∈ st.seenIds ∨ chunkKey row.filename row.chunk_index ∈ st.seenChunks
  · rw [if_pos hseen]
    exact h
  · rw [if_neg hseen]
    intro c hc
    rcases List.mem_append.mp hc with hold | hnew
    · exact h c hold
    · simp only [List.mem_singleton] at hnew
      subst hnew
      rfl

theorem foldl_dedup_score (keywords : List String) :
    ∀ (rows : List Row) (st : DedupState),
      (∀ c ∈ st.candidates, c.keywordScore = computeKeywordScore c.text keywords) →
      ∀ c ∈ (rows.foldl (dedupStep keywords) st).candidates,
        c.keywordScore = computeKeywordScore c.text keywords
  | [], _, h => h
  | row :: rows, st, h =>
    foldl_dedup_score keywords rows _ (dedupStep_score keywords st row h)

/-! ## Claim theorems about the retriever -/

/-- C1: in the candidate list returned by searchRunbooks, for any two entries in
return order, if they have equal keyword score then the earlier one has the
smaller (or equal) vector distance, and if they have different keyword scores
then the earlier one has the strictly higher keyword score, regardless of
distance. -/
theorem searchRunbooks_rerank_order (queryText : String) (topK : Nat)
    (rows : List Row) :
    (searchRunbooks queryText topK rows).Pairwise
      (fun a b => (a.keywordScore = b.keywordScore → a.distance ≤ b.distance) ∧
        (a.keywordScore ≠ b.keywordScore → b.keywordScore < a.keywordScore)) := by
  unfold searchRunbooks
  apply List.Pairwise.sublist (List.take_sublist _ _)
  have hsorted := List.sorted_insertionSort rerankLE
    ((rows.foldl (dedupStep (extractKeywords queryText)) ⟨[], [], []⟩).candidates)
  refine hsorted.imp ?_
  intro a b hab
  rcases hab with hlt | ⟨heq, hle⟩
  · exact ⟨fun he => absurd (he ▸ hlt) (lt_irrefl _), fun _ => hlt⟩
  · exact ⟨fun _ => hle, fun hne => absurd heq hne⟩

/-- C2: for every query and every list of candidate rows returned by the store
(duplicates included), the result of searchRunbooks contains no two entries with
the same chunk id and no two entries with the same (filename, chunkIndex) pair. -/
theorem searchRunbooks_dedup_invariant (queryText : String) (topK : Nat)
    (rows : List Row) :
    (searchRunbooks queryText topK rows).Pairwise
      (fun a b => a.id ≠ b.id ∧
        ¬(a.filename = b.filename ∧ a.chunkIndex = b.chunkIndex)) := by
  unfold searchRunbooks
  apply List.Pairwise.sublist (List.take_sublist _ _)
  have hinv := foldl_dedup_inv (extractKeywords queryText) rows ⟨[], [], []⟩
    ⟨fun c hc => absurd hc (List.not_mem_nil c), List.Pairwise.nil⟩
  have hperm := List.perm_insertionSort rerankLE
    ((rows.foldl (dedupStep (extractKeywords queryText)) ⟨[], [], []⟩).candidates)
  exact (hperm.pairwise_iff (fun hab => distinctCand_symm hab)).mpr hinv.2

/-- C9: every candidate returned by searchRunbooks carries a keywordScore equal
to the number of extracted keywords occurring as substrings of its lowercased
text, where the keywords come from lowercasing the query, splitting on
non-alphanumerics, keeping tokens of length at least 4, deduplicating, and
capping at 8; hence the score is between 0 and 8. -/
theorem searchRunbooks_keywordScore (queryText : String) (topK : Nat)
    (rows : List Row) :
    ∀ c ∈ searchRunbooks queryText topK rows,
      c.keywordScore = computeKeywordScore c.text (extractKeywords queryText) ∧
      c.keywordScore ≤ 8 := by
  intro c hc
  unfold searchRunbooks at hc
  have hc2 : c ∈ List.insertionSort rerankLE
      ((rows.foldl (dedupStep (extractKeywords queryText)) ⟨[], [], []⟩).candidates) :=
    (List.take_sublist _ _).subset hc
  have hc3 : c ∈
      ((rows.foldl (dedupStep (extractKeywords queryText)) ⟨[], [], []⟩).candidates) :=
    (List.perm_insertionSort rerankLE _).mem_iff.mp hc2
  have hscore := foldl_dedup_score (extractKeywords queryText) rows ⟨[], [], []⟩
    (by intro x hx; cases hx) c hc3
  refine ⟨hscore, ?_⟩
  rw [hscore]
  calc computeKeywordScore c.text (extractKeywords queryText)
      ≤ (extractKeywords queryText).length := List.length_filter_le _ _
    _ ≤ 8 := by
        unfold extractKeywords
        exact List.length_take_le _ _

/-- Witness for C9 at a concrete query and store row. -/
theorem searchRunbooks_keywordScore_witness :
    ({ id := "a", text := "the payment runbook", filename := "f", chunkIndex := 0,
       distance := 0, keywordScore := 2 } : Candidate).keywordScore =
        computeKeywordScore "the payment runbook" (extractKeywords "restart payment runbook") ∧
    ({ id := "a", text := "the payment runbook", filename := "f", chunkIndex := 0,
       distance := 0, keywordScore := 2 } : Candidate).keywordScore ≤ 8 :=
  searchRunbooks_keywordScore "restart payment runbook" 5
    [⟨"a", "the payment runbook", "f", 0, 0⟩] _ (by decide)

/-! ## Lemmas and claim theorems about the simple chunker -/

/-- Under sane parameters (maxChunkSize at least 1, overlap at most half of
maxChunkSize) the while loop of chunkTextSimple advances start by at least one
position per iteration. -/
theorem simpleIter_progress (text : List Char) (maxChunkSize overlap : Nat)
    (hmax : 1 ≤ maxChunkSize) (hov : 2 * overlap ≤ maxChunkSize) (start : Int)
    (h0 : 0 ≤ start) (hlt : start < (text.length : Int)) :
    start + 1 ≤ (simpleIter text maxChunkSize overlap start).nextStart := by
  have hminle : min (start + (maxChunkSize : Int)) (text.length : Int) ≤
      (text.length : Int) := min_le_right _ _
  have hminch : min (start + (maxChunkSize : Int)) (text.length : Int) =
        start + (maxChunkSize : Int) ∨
      min (start + (maxChunkSize : Int)) (text.length : Int) =
        (text.length : Int) := min_choice _ _
  unfold simpleIter
  dsimp only
  split_ifs with h1 h2
  · dsimp only
    generalize max
      (lastIndexOfC '.' (jsSlice text start
        (min (start + (maxChunkSize : Int)) (text.length : Int))))
      (lastIndexOfC '\n' (jsSlice text start
        (min (start + (maxChunkSize : Int)) (text.length : Int)))) = bp at h2
    omega
  · dsimp only
    omega
  · dsimp only
    omega

/-- With enough fuel relative to the distance left to the end of the text,
the chunkTextSimple loop completes (under the sane parameters). -/
theorem chunkSimpleGo_some (text : List Char) (maxChunkSize overlap : Nat)
    (hmax : 1 ≤ maxChunkSize) (hov : 2 * overlap ≤ maxChunkSize) :
    ∀ (fuel : Nat) (start : Int) (acc : List (List Char)), 0 ≤ start →
      (text.length : Int) - start < fuel →
      ∃ r, chunkSimpleGo text maxChunkSize overlap fuel start acc = some r
  | 0, start, acc, h0, hfuel => by
    unfold chunkSimpleGo
    have : ¬(start < (text.length : Int)) := by omega
    rw [if_neg this]
    exact ⟨acc, rfl⟩
  | fuel + 1, start, acc, h0, hfuel => by
    unfold chunkSimpleGo
    by_cases hlt : start < (text.length : Int)
    · rw [if_pos hlt]
      have hprog := simpleIter_progress text maxChunkSize overlap hmax hov start h0 hlt
      exact chunkSimpleGo_some text maxChunkSize overlap hmax hov fuel
        (simpleIter text maxChunkSize overlap start).nextStart _
        (by omega) (by push_cast at hfuel ⊢; omega)
    · rw [if_neg hlt]
      exact ⟨acc, rfl⟩

/-- C10 counterexample: maxChunkSize = 0 with overlap = 0 satisfies the proviso
of the claim (overlap at most half of maxChunkSize) and yet the loop of
chunkTextSimple makes no progress on a one-character text: the iteration at
start = 0 returns nextStart = 0 again, and the fuel-indexed loop never reaches
the end of the text. -/
theorem chunkTextSimple_stuck_at_zero_maxChunkSize :
    (simpleIter ['a'] 0 0 0).nextStart = 0 ∧ chunkTextSimple ['a'] 0 0 = none := by
  constructor
  · rfl
  · rfl

/-- C10 (amended): for every input text, chunkText terminates: the loop start
position strictly increases on every iteration and text.length + 1 iterations
suffice, provided overlap is at most half of maxChunkSize and maxChunkSize is
at least 1; both provisos hold for the default parameters maxChunkSize = 400
and overlap = 50 used by the pipeline. -/
theorem chunkText_terminates (text : List Char) (isMarkdown : Bool)
    (maxChunkSize overlap : Nat) (hmax : 1 ≤ maxChunkSize)
    (hov : 2 * overlap ≤ maxChunkSize) :
    (∀ start : Int, 0 ≤ start → start < (text.length : Int) →
        start < (simpleIter text maxChunkSize overlap start).nextStart) ∧
    ∃ r, chunkText text isMarkdown maxChunkSize overlap = some r := by
  constructor
  · intro start h0 hlt
    have := simpleIter_progress text maxChunkSize overlap hmax hov start h0 hlt
    omega
  · unfold chunkText
    by_cases hmd : isMarkdown = true
    · rw [if_pos hmd]
      exact ⟨_, rfl⟩
    · rw [if_neg hmd]
      unfold chunkTextSimple
      exact chunkSimpleGo_some text maxChunkSize overlap hmax hov
        (text.length + 1) 0 [] (le_refl 0) (by push_cast; omega)

/-- Witness for the amended C10 at the default parameters on a concrete text. -/
theorem chunkText_terminates_witness :
    (0 : Int) < (simpleIter "hello world. the end".data 400 50 0).nextStart ∧
    ∃ r, chunkText "hello world. the end".data false 400 50 = some r :=
  ⟨(chunkText_terminates "hello world. the end".data false 400 50
      (by decide) (by decide)).1 0 (by decide) (by decide),
   (chunkText_terminates "hello world. the end".data false 400 50
      (by decide) (by decide)).2⟩

/-- C3: the sentence-boundary rule of chunkTextSimple diverges from the
specification at a window boundary with positive start. On c3FailText with
maxChunkSize = 10 and overlap = 2, the window starting at 8 contains its last
period at window-relative index 7, beyond 50 percent of the window, yet the
code hard-breaks at the window edge because the guard compares the
window-relative lastIndexOf result against the text-absolute threshold
start + maxChunkSize * 0.5; the specification-worded rule breaks at the
period. -/
theorem chunkTextSimple_divergence_at_failing_input :
    lastIndexOfC '.' (jsSlice c3FailText 8 18) = 7 ∧
    (simpleIter c3FailText 10 2 8).chunk = "aaaaaaa.bb".data ∧
    (simpleIter c3FailText 10 2 8).nextStart = 16 ∧
    (simpleIterSpec c3FailText 10 2 8).chunk = "aaaaaaa.".data ∧
    (simpleIterSpec c3FailText 10 2 8).nextStart = 14 ∧
    chunkTextSimple c3FailText 10 2 =
      some ["aaaaaaaaaa".data, "aaaaaaa.bb".data, "bbbbbbbbbb".data, "bbbb".data] ∧
    chunkTextSimpleSpec c3FailText 10 2 =
      some ["aaaaaaaaaa".data, "aaaaaaa.".data, "a.bbbbbbbb".data, "bbbbbb".data] := by
  refine ⟨by decide, by decide, by decide, by decide, by decide, by decide, by decide⟩

/-! ## Lemmas about splitting on newlines -/

theorem splitNl_cons (c : Char) (l : List Char) :
    splitNl (c :: l) = splitNlStep c (splitNl l) := rfl

theorem splitNl_exists_cons : ∀ l : List Char, ∃ h t, splitNl l = h :: t
  | [] => ⟨[], [], rfl⟩
  | c :: cs => by
    obtain ⟨h, t, ih⟩ := splitNl_exists_cons cs
    rw [splitNl_cons, ih]
    unfold splitNlStep
    by_cases hc : c = '\n'
    · rw [if_pos hc]
      exact ⟨[], h :: t, rfl⟩
    · rw [if_neg hc]
      exact ⟨c :: h, t, rfl⟩

theorem splitNl_ne_nil (l : List Char) : splitNl l ≠ [] := by
  obtain ⟨h, t, he⟩ := splitNl_exists_cons l
  rw [he]
  exact List.cons_ne_nil h t

/-- Splitting a concatenation on newlines: the pieces of x, with the last piece
of x merged with the first piece of y, then the remaining pieces of y. -/
theorem splitNl_append : ∀ (x y : List Char) (xs : List (List Char))
    (xl yh : List Char) (yt : List (List Char)),
    splitNl x = xs ++ [xl] → splitNl y = yh :: yt →
    splitNl (x ++ y) = xs ++ (xl ++ yh) :: yt
  | [], y, xs, xl, yh, yt, h1, h2 => by
    have hx : splitNl ([] : List Char) = [[]] := rfl
    rw [hx] at h1
    rcases xs with _ | ⟨a, as⟩
    · simp only [List.nil_append] at h1 ⊢
      have hxl : xl = [] := by
        injection h1.symm
      subst hxl
      rw [List.nil_append]
      exact h2
    · exfalso
      rw [List.cons_append] at h1
      injection h1 with ha hb
      exact (List.append_ne_nil_of_right_ne_nil as (List.cons_ne_nil xl [])) hb.symm
  | c :: x', y, xs, xl, yh, yt, h1, h2 => by
    obtain ⟨h', t', hx'⟩ := splitNl_exists_cons x'
    by_cases hc : c = '\n'
    · subst hc
      rw [splitNl_cons] at h1
      unfold splitNlStep at h1
      rw [if_pos rfl] at h1
      rcases xs with _ | ⟨a, as⟩
      · exfalso
        rw [List.nil_append] at h1
        injection h1 with ha hb
        exact splitNl_ne_nil x' hb
      · rw [List.cons_append] at h1
        injection h1 with ha hb
        have ih := splitNl_append x' y as xl yh yt hb h2
        rw [List.cons_append, splitNl_cons]
        unfold splitNlStep
        rw [if_pos rfl, ih, ← ha]
        rfl
    · rw [splitNl_cons] at h1
      unfold splitNlStep at h1
      rw [if_neg hc, hx'] at h1
      rcases xs with _ | ⟨a, as⟩
      · rw [List.nil_append] at h1
        injection h1 with ha hb
        have hx2 : splitNl x' = [] ++ [h'] := by
          rw [hx', hb]
          rfl
        have ih := splitNl_append x' y [] h' yh yt hx2 h2
        rw [List.cons_append, splitNl_cons]
        unfold splitNlStep
        rw [if_neg hc, ih]
        rw [List.nil_append, List.nil_append, ← ha]
        rfl
      · rw [List.cons_append] at h1
        injection h1 with ha hb
        have hx2 : splitNl x' = (h' :: as) ++ [xl] := by
          rw [hx', hb]
          rfl
        have ih := splitNl_append x' y (h' :: as) xl yh yt hx2 h2
        rw [List.cons_append, splitNl_cons]
        unfold splitNlStep
        rw [if_neg hc, ih, ← ha]
        rfl

theorem splitNl_no_newline : ∀ (l : List Char), ∀ x ∈ splitNl l, '\n' ∉ x
  | [], x, hx => by
    have : splitNl ([] : List Char) = [[]] := rfl
    rw [this] at hx
    simp only [List.mem_singleton] at hx
    subst hx
    exact List.not_mem_nil _
  | c :: cs, x, hx => by
    rw [splitNl_cons] at hx
    unfold splitNlStep at hx
    by_cases hc : c = '\n'
    · rw [if_pos hc] at hx
      rcases List.mem_cons.mp hx with he | ht
      · subst he
        exact List.not_mem_nil _
      · exact splitNl_no_newline cs x ht
    · rw [if_neg hc] at hx
      obtain ⟨h, t, hsp⟩ := splitNl_exists_cons cs
      rw [hsp] at hx
      rcases List.mem_cons.mp hx with he | ht
      · subst he
        intro hmem
        rcases List.mem_cons.mp hmem with he2 | hm2
        · exact hc he2.symm
        · exact splitNl_no_newline cs h (hsp ▸ List.mem_cons_self _ _) hm2
      · exact splitNl_no_newline cs x (hsp ▸ List.mem_cons_of_mem _ ht)

theorem splitNl_singleton : ∀ (l : List Char), '\n' ∉ l → splitNl l = [l]
  | [], _ => rfl
  | c :: cs, hnl => by
    have hc : c ≠ '\n' := fun he => hnl (he ▸ List.mem_cons_self _ _)
    have ih := splitNl_singleton cs (fun hm => hnl (List.mem_cons_of_mem _ hm))
    rw [splitNl_cons, ih]
    unfold splitNlStep
    rw [if_neg hc]

/-! ## The heading-isolation property of the Markdown chunker -/

/-- A chunk is clean when no line of it other than the first is a Markdown
heading line. -/
def CleanChunk (s : List Char) : Prop :=
  ∀ l ∈ (splitNl s).tail, isHeadingLine l = false

theorem cleanChunk_nil : CleanChunk [] := by
  intro l hl
  have : splitNl ([] : List Char) = [[]] := rfl
  rw [this] at hl
  exact absurd hl (List.not_mem_nil l)

theorem cleanChunk_single (s : List Char) (hnl : '\n' ∉ s) : CleanChunk s := by
  intro l hl
  rw [splitNl_singleton s hnl] at hl
  exact absurd hl (List.not_mem_nil l)

theorem cleanChunk_of_suffix (s t : List Char) (hc : CleanChunk s)
    (hsuf : t <:+ s) : CleanChunk t := by
  obtain ⟨a, rfl⟩ := hsuf
  intro x hx
  obtain ⟨th, tt, hts⟩ := splitNl_exists_cons t
  rcases List.eq_nil_or_concat (splitNl a) with hnil | ⟨as, al, has⟩
  · exact absurd hnil (splitNl_ne_nil a)
  rw [List.concat_eq_append] at has
  have hmerge := splitNl_append a t as al th tt has hts
  apply hc
  rw [hmerge]
  rw [hts, List.tail_cons] at hx
  rcases as with _ | ⟨a0, as'⟩
  · rw [List.nil_append, List.tail_cons]
    exact hx
  · rw [List.cons_append, List.tail_cons]
    exact List.mem_append_right _ (List.mem_cons_of_mem _ hx)

theorem countLeadHashes_le : ∀ l : List Char, countLeadHashes l ≤ l.length
  | [] => Nat.le_refl 0
  | c :: cs => by
    unfold countLeadHashes
    by_cases hc : c = '#'
    · rw [if_pos hc, List.length_cons]
      exact Nat.succ_le_succ (countLeadHashes_le cs)
    · rw [if_neg hc]
      exact Nat.zero_le _

theorem countLeadHashes_cons (c : Char) (cs : List Char) :
    countLeadHashes (c :: cs) = if c = '#' then countLeadHashes cs + 1 else 0 := rfl

theorem countLeadHashes_append : ∀ (p q : List Char),
    countLeadHashes p < p.length → countLeadHashes (p ++ q) = countLeadHashes p
  | [], _, h => absurd h (by simp)
  | c :: cs, q, h => by
    rw [countLeadHashes_cons] at h
    rw [List.cons_append, countLeadHashes_cons, countLeadHashes_cons]
    by_cases hc : c = '#'
    · rw [if_pos hc] at h ⊢
      rw [if_pos hc]
      rw [List.length_cons] at h
      rw [countLeadHashes_append cs q (Nat.lt_of_succ_lt_succ h)]
    · rw [if_neg hc]
      rw [if_neg hc]

/-- Propositional characterization of the heading test. -/
theorem isHeadingLine_eq_true_iff (l : List Char) :
    isHeadingLine l = true ↔ (1 ≤ countLeadHashes l ∧ countLeadHashes l ≤ 6 ∧
      ∃ c rest, l.drop (countLeadHashes l) = c :: rest ∧ c.isWhitespace = true) := by
  unfold isHeadingLine
  cases hdr : l.drop (countLeadHashes l) with
  | nil => simp [hdr]
  | cons c rest =>
    simp only [hdr, Bool.and_eq_true, decide_eq_true_eq]
    constructor
    · rintro ⟨⟨h1, h2⟩, h3⟩
      exact ⟨h1, h2, c, rest, rfl, h3⟩
    · rintro ⟨h1, h2, c2, rest2, he, h3⟩
      injection he with he1 he2
      subst he1
      exact ⟨⟨h1, h2⟩, h3⟩

/-- A line that starts with the heading pattern keeps it when extended on the
right: the hash run and the whitespace character after it are unchanged. -/
theorem isHeadingLine_append (p q : List Char) (hp : isHeadingLine p = true) :
    isHeadingLine (p ++ q) = true := by
  rw [isHeadingLine_eq_true_iff] at hp
  obtain ⟨h1, h2, c, rest, hdr, h3⟩ := hp
  have hlt : countLeadHashes p < p.length := by
    by_contra hge
    push_neg at hge
    have hd : p.drop (countLeadHashes p) = [] := List.drop_eq_nil_of_le hge
    rw [hd] at hdr
    exact absurd hdr (by simp)
  have hcount := countLeadHashes_append p q hlt
  have hdrop : (p ++ q).drop (countLeadHashes p) = c :: (rest ++ q) := by
    rw [List.drop_append_of_le_length (le_of_lt hlt), hdr]
    rfl
  rw [isHeadingLine_eq_true_iff, hcount]
  exact ⟨h1, h2, c, rest ++ q, hdrop, h3⟩

theorem cleanChunk_of_prefix_part (s t : List Char) (hc : CleanChunk s)
    (hpre : t <+: s) : CleanChunk t := by
  obtain ⟨b, rfl⟩ := hpre
  intro x hx
  rcases List.eq_nil_or_concat (splitNl t) with hnil | ⟨xs, xl, hxs⟩
  · exact absurd hnil (splitNl_ne_nil t)
  rw [List.concat_eq_append] at hxs
  obtain ⟨bh, bt, hbs⟩ := splitNl_exists_cons b
  have hmerge := splitNl_append t b xs xl bh bt hxs hbs
  rw [hxs] at hx
  rcases xs with _ | ⟨x0, xs'⟩
  · rw [List.nil_append, List.tail_cons] at hx
    exact absurd hx (List.not_mem_nil x)
  · rw [List.cons_append, List.tail_cons] at hx
    rcases List.mem_append.mp hx with hxs' | hxl
    · apply hc
      rw [hmerge, List.cons_append, List.tail_cons]
      exact List.mem_append_left _ hxs'
    · rw [List.mem_singleton] at hxl
      subst hxl
      by_contra hnf
      rw [Bool.not_eq_false] at hnf
      have hext := isHeadingLine_append x bh hnf
      have hmem : (x ++ bh) ∈ (splitNl (t ++ b)).tail := by
        rw [hmerge, List.cons_append, List.tail_cons]
        exact List.mem_append_right _ (List.mem_cons_self _ _)
      have hfalse := hc _ hmem
      rw [hext] at hfalse
      exact absurd hfalse (by simp)

theorem dropWhile_suffix_self (p : Char → Bool) (l : List Char) :
    l.dropWhile p <:+ l :=
  ⟨l.takeWhile p, List.takeWhile_append_dropWhile p l⟩

theorem reverse_dropWhile_prefix_part (p : Char → Bool) (u : List Char) :
    (u.reverse.dropWhile p).reverse <+: u := by
  refine ⟨(u.reverse.takeWhile p).reverse, ?_⟩
  rw [← List.reverse_append, List.takeWhile_append_dropWhile, List.reverse_reverse]

theorem cleanChunk_trimChars (s : List Char) (hc : CleanChunk s) :
    CleanChunk (trimChars s) := by
  unfold trimChars
  have h1 : CleanChunk (s.dropWhile Char.isWhitespace) :=
    cleanChunk_of_suffix s _ hc (dropWhile_suffix_self _ s)
  exact cleanChunk_of_prefix_part _ _ h1 (reverse_dropWhile_prefix_part _ _)

theorem joinNl_append_singleton : ∀ (cur : List (List Char)) (line : List Char),
    cur ≠ [] → joinNl (cur ++ [line]) = joinNl cur ++ '\n' :: line
  | [], _, h => absurd rfl h
  | [x], _, _ => rfl
  | x :: y :: ys, line, _ => by
    have ih := joinNl_append_singleton (y :: ys) line (List.cons_ne_nil y ys)
    show x ++ '\n' :: joinNl ((y :: ys) ++ [line]) =
      (x ++ '\n' :: joinNl (y :: ys)) ++ '\n' :: line
    rw [ih, List.append_assoc]
    rfl

/-- Appending a non-heading line (with no embedded newline) to the chunk under
construction keeps the chunk clean. -/
theorem cleanChunk_join_append (cur : List (List Char)) (line : List Char)
    (hcur : CleanChunk (joinNl cur)) (hline : isHeadingLine line = false)
    (hnl : '\n' ∉ line) : CleanChunk (joinNl (cur ++ [line])) := by
  rcases cur with _ | ⟨c0, cur'⟩
  · exact cleanChunk_single line hnl
  · rw [joinNl_append_singleton (c0 :: cur') line (List.cons_ne_nil _ _)]
    intro x hx
    rcases List.eq_nil_or_concat (splitNl (joinNl (c0 :: cur'))) with hnil | ⟨xs, xl, hxs⟩
    · exact absurd hnil (splitNl_ne_nil _)
    rw [List.concat_eq_append] at hxs
    have hy : splitNl ('\n' :: line) = [] :: [line] := by
      rw [splitNl_cons]
      unfold splitNlStep
      rw [if_pos rfl, splitNl_singleton line hnl]
    have hmerge := splitNl_append (joinNl (c0 :: cur')) ('\n' :: line) xs xl []
      [line] hxs hy
    rw [hmerge] at hx
    rcases xs with _ | ⟨x0, xs'⟩
    · rw [List.nil_append, List.tail_cons, List.mem_singleton] at hx
      subst hx
      exact hline
    · rw [List.cons_append, List.tail_cons] at hx
      rcases List.mem_append.mp hx with h1 | h2
      · apply hcur
        rw [hxs, List.cons_append, List.tail_cons]
        exact List.mem_append_left _ h1
      · rcases List.mem_cons.mp h2 with he | hl2
        · rw [List.append_nil] at he
          subst he
          apply hcur
          rw [hxs, List.cons_append, List.tail_cons]
          exact List.mem_append_right _ (List.mem_cons_self _ _)
        · rw [List.mem_singleton] at hl2
          subst hl2
          exact hline

/-- The clean-chunks invariant of the line loop of chunkMarkdownWithHeadings:
every finished chunk is clean and so is the chunk under construction. -/
def MdInv (st : MdState) : Prop :=
  (∀ c ∈ st.chunks, CleanChunk c) ∧ CleanChunk (joinNl st.currentChunk)

theorem mdStep_inv (maxChunkSize overlap : Nat) (st : MdState) (line : List Char)
    (hnl : '\n' ∉ line) (h : MdInv st) :
    MdInv (mdStep maxChunkSize overlap st line) := by
  unfold mdStep
  by_cases hguard : isHeadingLine line = true ∧ st.currentChunk ≠ []
  · rw [if_pos hguard]
    refine ⟨?_, cleanChunk_single line hnl⟩
    intro c hc
    rcases List.mem_append.mp hc with h1 | h2
    · exact h.1 c h1
    · rw [List.mem_singleton] at h2
      subst h2
      exact cleanChunk_trimChars _ h.2
  · rw [if_neg hguard]
    dsimp only
    by_cases hsz : st.currentSize + (line.length + 1) > maxChunkSize ∧
        st.currentChunk ≠ []
    · rw [if_pos hsz]
      dsimp only
      have hov : CleanChunk (if min overlap (joinNl st.currentChunk).length = 0
          then joinNl st.currentChunk
          else (joinNl st.currentChunk).drop
            ((joinNl st.currentChunk).length -
              min overlap (joinNl st.currentChunk).length)) := by
        by_cases h0 : min overlap (joinNl st.currentChunk).length = 0
        · rw [if_pos h0]
          exact h.2
        · rw [if_neg h0]
          exact cleanChunk_of_suffix _ _ h.2 (List.drop_suffix _ _)
      constructor
      · intro c hc
        rcases List.mem_append.mp hc with h1 | h2
        · exact h.1 c h1
        · rw [List.mem_singleton] at h2
          subst h2
          exact cleanChunk_trimChars _ h.2
      · set ov := if min overlap (joinNl st.currentChunk).length = 0
          then joinNl st.currentChunk
          else (joinNl st.currentChunk).drop
            ((joinNl st.currentChunk).length -
              min overlap (joinNl st.currentChunk).length) with hov2
        by_cases hne : ov ≠ []
        · rw [if_pos hne, if_pos hne]
          have hlinef : isHeadingLine line = false := by
            rcases Bool.eq_false_or_eq_true (isHeadingLine line) with hf | ht
            · exact absurd ⟨hf, hsz.2⟩ hguard
            · exact ht
          exact cleanChunk_join_append [ov] line hov hlinef hnl
        · rw [if_neg hne, if_neg hne]
          rw [List.nil_append]
          exact cleanChunk_single line hnl
    · rw [if_neg hsz]
      refine ⟨h.1, ?_⟩
      rcases List.eq_nil_or_concat st.currentChunk with hcur | ⟨c0, cur', hc0⟩
      · rw [hcur, List.nil_append]
        exact cleanChunk_single line hnl
      · have hcurne : st.currentChunk ≠ [] := by
          rw [hc0]
          exact List.concat_ne_nil _ _
        have hlinef : isHeadingLine line = false := by
          rcases Bool.eq_false_or_eq_true (isHeadingLine line) with hf | ht
          · exact absurd ⟨hf, hcurne⟩ hguard
          · exact ht
        exact cleanChunk_join_append st.currentChunk line h.2 hlinef hnl

theorem foldl_md_inv (maxChunkSize overlap : Nat) :
    ∀ (lines : List (List Char)) (st : MdState),
      (∀ l ∈ lines, '\n' ∉ l) → MdInv st →
      MdInv (lines.foldl (mdStep maxChunkSize overlap) st)
  | [], _, _, h => h
  | line :: rest, st, hnl, h =>
    foldl_md_inv maxChunkSize overlap rest _
      (fun l hl => hnl l (List.mem_cons_of_mem _ hl))
      (mdStep_inv maxChunkSize overlap st line (hnl line (List.mem_cons_self _ _)) h)

/-- C4: heading-aware chunking. A line matching the Markdown heading pattern
with a non-empty current chunk always flushes the current chunk and starts the
new chunk at exactly that heading line, with no overlap carried; consequently
every chunk produced by chunkMarkdownWithHeadings is clean: no line of it other
than the first is a heading line, so no chunk mixes content lying on both sides
of a heading boundary. -/
theorem chunkMarkdown_heading_boundary (text : List Char)
    (maxChunkSize overlap : Nat) :
    (∀ (st : MdState) (line : List Char), isHeadingLine line = true →
        st.currentChunk ≠ [] →
        mdStep maxChunkSize overlap st line =
          { chunks := st.chunks ++ [trimChars (joinNl st.currentChunk)]
            currentChunk := [line]
            currentSize := line.length + 1 }) ∧
    ∀ c ∈ chunkMarkdownWithHeadings text maxChunkSize overlap, CleanChunk c := by
  constructor
  · intro st line h1 h2
    unfold mdStep
    rw [if_pos ⟨h1, h2⟩]
  · intro c hc
    unfold chunkMarkdownWithHeadings at hc
    have hinv := foldl_md_inv maxChunkSize overlap (splitNl text) ⟨[], [], 0⟩
      (splitNl_no_newline text)
      ⟨fun x hx => absurd hx (List.not_mem_nil x), cleanChunk_nil⟩
    have hc2 := (List.mem_filter.mp hc).1
    by_cases hcur :
        ((splitNl text).foldl (mdStep maxChunkSize overlap) ⟨[], [], 0⟩).currentChunk ≠ []
    · rw [if_pos hcur] at hc2
      rcases List.mem_append.mp hc2 with h1 | h2
      · exact hinv.1 c h1
      · rw [List.mem_singleton] at h2
        subst h2
        exact cleanChunk_trimChars _ hinv.2
    · rw [if_neg hcur] at hc2
      exact hinv.1 c hc2

/-- Witness for C4: the flush equation at a concrete state and heading line, and
the heading-isolation property at a concrete chunk of a concrete text. -/
theorem chunkMarkdown_heading_boundary_witness :
    mdStep 400 50 ⟨[], [['a']], 2⟩ "# B".data =
      { chunks := [['a']], currentChunk := ["# B".data], currentSize := 4 } ∧
    isHeadingLine "body".data = false :=
  ⟨(chunkMarkdown_heading_boundary ['x'] 400 50).1 ⟨[], [['a']], 2⟩ "# B".data
      (by decide) (by decide),
   (chunkMarkdown_heading_boundary "x\n# A\nbody".data 400 50).2
      "# A\nbody".data (by decide) "body".data (by decide)⟩

/-! ## Embedding batch orchestration (lib/indexing.ts and the upload route) -/

/-- createEmbeddingsBatch from lib/indexing.ts, with the OpenAI embeddings call
modelled by the oracle resp giving the vectors of the response data for a
batch: the empty input returns the empty list, otherwise the response items are
mapped to their embedding fields, with no count check of its own. -/
def createEmbeddingsBatch (resp : List String → List (List ℚ))
    (texts : List String) : List (List ℚ) :=
  if texts.length = 0 then [] else resp texts

def EMBEDDING_BATCH_SIZE : Nat := 100

def EMBEDDING_CONCURRENCY : Nat := 2

/-- Worker for sliceBatches: cur holds the reversed group under construction. -/
def sliceBatchesAux (size : Nat) : List α → List α → List (List α)
  | [], cur => if cur.isEmpty then [] else [cur.reverse]
  | x :: xs, cur =>
    if size ≤ cur.length + 1 then (x :: cur).reverse :: sliceBatchesAux size xs []
    else sliceBatchesAux size xs (x :: cur)

/-- Slicing a list into consecutive groups of the given size, as the batching
for loops of the upload route do with slice(i, i + size); the loops step by the
positive constants EMBEDDING_BATCH_SIZE and EMBEDDING_CONCURRENCY. -/
def sliceBatches (size : Nat) (l : List α) : List (List α) :=
  sliceBatchesAux size l []

/-- The embed stage of the upload route for the chunks of one file: slice the
chunks into batches of EMBEDDING_BATCH_SIZE, process groups of
EMBEDDING_CONCURRENCY batches (Promise.all preserves order, so the grouping
only groups the same per-batch results), flatten all embeddings in order, and
fail when the total count differs from the input count. -/
def embedStage (resp : List String → List (List ℚ))
    (chunksToProcess : List String) : Except String (List (List ℚ)) :=
  let batches := sliceBatches EMBEDDING_BATCH_SIZE chunksToProcess
  let groups := sliceBatches EMBEDDING_CONCURRENCY batches
  let allEmbeddings :=
    (groups.map (fun g => (g.map (createEmbeddingsBatch resp)).flatten)).flatten
  if allEmbeddings.length ≠ chunksToProcess.length then
    Except.error "Embedding count mismatch"
  else Except.ok allEmbeddings

/-! ## Per-request chunk cap and per-file report (upload route) -/

def MAX_CHUNKS_PER_UPLOAD : Nat := 60

/-- The chunk-cap block of the upload route: when the chunks of the current
file would push the running total over MAX_CHUNKS_PER_UPLOAD, only the
remaining budget is processed and the rest is counted as skipped. Returns the
chunks to process and the skipped count. -/
def capChunks (totalChunksCreated : Nat) (chunks : List String) :
    List String × Nat :=
  if totalChunksCreated + chunks.length > MAX_CHUNKS_PER_UPLOAD then
    (chunks.take (MAX_CHUNKS_PER_UPLOAD - totalChunksCreated),
      chunks.length - (MAX_CHUNKS_PER_UPLOAD - totalChunksCreated))
  else (chunks, 0)

/-- Entry of the files array of the upload response. -/
structure PerFileReport where
  filename : String
  chunks : Nat
  chunks_skipped : Option Nat
deriving DecidableEq, Repr

/-- Building the per-file entry of the response, as the upload route does with
the conditional spread of chunks_skipped: the field appears exactly when the
skipped count is positive. -/
def reportFile (filename : String) (chunkCount chunksSkipped : Nat) :
    PerFileReport :=
  ⟨filename, chunkCount, if chunksSkipped > 0 then some chunksSkipped else none⟩

/-! ## Lemmas about batching, and claim theorems C5 and C8 -/

theorem flatten_sliceBatchesAux (size : Nat) :
    ∀ (l cur : List α), (sliceBatchesAux size l cur).flatten = cur.reverse ++ l
  | [], cur => by
    unfold sliceBatchesAux
    by_cases hc : cur.isEmpty
    · rw [if_pos hc]
      rw [List.isEmpty_iff] at hc
      subst hc
      rfl
    · rw [if_neg hc]
      simp
  | x :: xs, cur => by
    unfold sliceBatchesAux
    by_cases hsz : size ≤ cur.length + 1
    · rw [if_pos hsz]
      rw [List.flatten_cons, flatten_sliceBatchesAux size xs []]
      simp
    · rw [if_neg hsz]
      rw [flatten_sliceBatchesAux size xs (x :: cur)]
      simp

theorem flatten_sliceBatches (size : Nat) (l : List α) :
    (sliceBatches size l).flatten = l := by
  unfold sliceBatches
  rw [flatten_sliceBatchesAux]
  rfl

theorem flatten_map_flatten (f : List α → List β) :
    ∀ G : List (List (List α)),
      (G.map (fun g => (g.map f).flatten)).flatten = (G.flatten.map f).flatten
  | [] => rfl
  | g :: G => by
    rw [List.map_cons, List.flatten_cons, List.flatten_cons, List.map_append,
      List.flatten_append, flatten_map_flatten f G]

/-- C5: the embed stage returns exactly one vector per input chunk, in batch
order (the flattening of the per-batch responses); any count mismatch between
the returned vectors and the input chunks yields the embedding count error
rather than a silently truncated or padded result. -/
theorem embedStage_count_invariant (resp : List String → List (List ℚ))
    (chunksToProcess : List String) :
    (∀ v, embedStage resp chunksToProcess = Except.ok v →
      v.length = chunksToProcess.length ∧
      v = ((sliceBatches EMBEDDING_BATCH_SIZE chunksToProcess).map
        (createEmbeddingsBatch resp)).flatten) ∧
    (((sliceBatches EMBEDDING_BATCH_SIZE chunksToProcess).map
        (createEmbeddingsBatch resp)).flatten.length ≠ chunksToProcess.length →
      embedStage resp chunksToProcess = Except.error "Embedding count mismatch") := by
  have hflat :
      ((sliceBatches EMBEDDING_CONCURRENCY
          (sliceBatches EMBEDDING_BATCH_SIZE chunksToProcess)).map
        (fun g => (g.map (createEmbeddingsBatch resp)).flatten)).flatten =
      ((sliceBatches EMBEDDING_BATCH_SIZE chunksToProcess).map
        (createEmbeddingsBatch resp)).flatten := by
    rw [flatten_map_flatten, flatten_sliceBatches]
  constructor
  · intro v hv
    unfold embedStage at hv
    by_cases hne :
        ((sliceBatches EMBEDDING_CONCURRENCY
            (sliceBatches EMBEDDING_BATCH_SIZE chunksToProcess)).map
          (fun g => (g.map (createEmbeddingsBatch resp)).flatten)).flatten.length ≠
          chunksToProcess.length
    · rw [if_pos hne] at hv
      exact absurd hv (by simp)
    · rw [if_neg hne] at hv
      injection hv with hv
      push_neg at hne
      subst hv
      rw [hflat] at hne ⊢
      exact ⟨hne, rfl⟩
  · intro hne
    unfold embedStage
    rw [if_pos]
    rw [hflat]
    exact hne

/-- Witness for C5 at a concrete oracle and chunk list. -/
theorem embedStage_count_invariant_witness :
    ([[(0 : ℚ)], [0]] : List (List ℚ)).length =
      (["alpha", "beta"] : List String).length ∧
    ([[(0 : ℚ)], [0]] : List (List ℚ)) =
      ((sliceBatches EMBEDDING_BATCH_SIZE ["alpha", "beta"]).map
        (createEmbeddingsBatch (fun ts => ts.map (fun _ => [(0 : ℚ)])))).flatten :=
  (embedStage_count_invariant (fun ts => ts.map (fun _ => [(0 : ℚ)]))
    ["alpha", "beta"]).1 [[0], [0]] rfl

/-- Processing a file never pushes the running chunk total over the cap. -/
theorem capChunks_total_le (totalChunksCreated : Nat) (chunks : List String)
    (hle : totalChunksCreated ≤ MAX_CHUNKS_PER_UPLOAD) :
    totalChunksCreated + (capChunks totalChunksCreated chunks).1.length ≤
      MAX_CHUNKS_PER_UPLOAD := by
  unfold capChunks
  by_cases hc : totalChunksCreated + chunks.length > MAX_CHUNKS_PER_UPLOAD
  · rw [if_pos hc]
    rw [List.length_take]
    have : (MAX_CHUNKS_PER_UPLOAD - totalChunksCreated) ⊓ chunks.length ≤
        MAX_CHUNKS_PER_UPLOAD - totalChunksCreated := inf_le_left
    omega
  · rw [if_neg hc]
    show totalChunksCreated + chunks.length ≤ MAX_CHUNKS_PER_UPLOAD
    omega

/-- C8: when the chunk count of a file exceeds the remaining per-request chunk
budget, the pipeline processes exactly the remaining budget (a prefix of the
chunks), drops the rest, and the per-file entry of the response carries the
shortfall as a present, non-zero chunks_skipped count; nothing is thrown and
nothing is silently lost (processed plus skipped account for every chunk). -/
theorem capChunks_reports_skipped (totalChunksCreated : Nat)
    (chunks : List String) (filename : String)
    (hle : totalChunksCreated ≤ MAX_CHUNKS_PER_UPLOAD)
    (hover : MAX_CHUNKS_PER_UPLOAD - totalChunksCreated < chunks.length) :
    (capChunks totalChunksCreated chunks).1 =
      chunks.take (MAX_CHUNKS_PER_UPLOAD - totalChunksCreated) ∧
    (capChunks totalChunksCreated chunks).1.length =
      MAX_CHUNKS_PER_UPLOAD - totalChunksCreated ∧
    (capChunks totalChunksCreated chunks).2 =
      chunks.length - (MAX_CHUNKS_PER_UPLOAD - totalChunksCreated) ∧
    0 < (capChunks totalChunksCreated chunks).2 ∧
    (capChunks totalChunksCreated chunks).1.length +
      (capChunks totalChunksCreated chunks).2 = chunks.length ∧
    (reportFile filename (capChunks totalChunksCreated chunks).1.length
        (capChunks totalChunksCreated chunks).2).chunks_skipped =
      some (capChunks totalChunksCreated chunks).2 := by
  have hc : totalChunksCreated + chunks.length > MAX_CHUNKS_PER_UPLOAD := by
    omega
  have h1 : (capChunks totalChunksCreated chunks).1 =
      chunks.take (MAX_CHUNKS_PER_UPLOAD - totalChunksCreated) := by
    unfold capChunks
    rw [if_pos hc]
  have h2 : (capChunks totalChunksCreated chunks).2 =
      chunks.length - (MAX_CHUNKS_PER_UPLOAD - totalChunksCreated) := by
    unfold capChunks
    rw [if_pos hc]
  have hlen : (capChunks totalChunksCreated chunks).1.length =
      MAX_CHUNKS_PER_UPLOAD - totalChunksCreated := by
    rw [h1, List.length_take]
    omega
  have hpos : 0 < (capChunks totalChunksCreated chunks).2 := by
    rw [h2]
    omega
  refine ⟨h1, hlen, h2, hpos, by rw [hlen, h2]; omega, ?_⟩
  unfold reportFile
  rw [if_pos hpos]

/-- Witness for C8: a request that already created 58 chunks receives a file
with five chunks; two are processed and three are reported skipped. -/
theorem capChunks_reports_skipped_witness :
    (capChunks 58 ["a", "b", "c", "d", "e"]).1 = ["a", "b", "c", "d", "e"].take 2 ∧
    (capChunks 58 ["a", "b", "c", "d", "e"]).1.length = 2 ∧
    (capChunks 58 ["a", "b", "c", "d", "e"]).2 = 3 ∧
    0 < (capChunks 58 ["a", "b", "c", "d", "e"]).2 ∧
    (capChunks 58 ["a", "b", "c", "d", "e"]).1.length +
      (capChunks 58 ["a", "b", "c", "d", "e"]).2 = 5 ∧
    (reportFile "big.md" (capChunks 58 ["a", "b", "c", "d", "e"]).1.length
        (capChunks 58 ["a", "b", "c", "d", "e"]).2).chunks_skipped =
      some (capChunks 58 ["a", "b", "c", "d", "e"]).2 :=
  capChunks_reports_skipped 58 ["a", "b", "c", "d", "e"] "big.md"
    (by decide) (by decide)

/-! ## PDF text extraction (lib/indexing.ts extractTextFromPDF and the upload
route extract stage) -/

def MAX_EXTRACTED_CHARS_PER_FILE : Nat := 150000

/-- extractTextFromPDF from lib/indexing.ts, with the pdf-parse library call
modelled by the oracle parsed (none models a null parse result, and an absent
text field arrives as the empty string): validates a non-empty buffer and the
magic header before touching the library, then fails when the parse result is
null or the parsed text is empty. The buffer bytes are modelled as characters,
only the first four are inspected. -/
def extractTextFromPDF (buffer : List Char) (parsed : Option (List Char)) :
    Except String (List Char) :=
  if buffer.length = 0 then Except.error "PDF buffer is empty or undefined"
  else if buffer.take 4 ≠ ['%', 'P', 'D', 'F'] then Except.error "Not a PDF header"
  else
    match parsed with
    | none => Except.error "pdf-parse returned null or undefined"
    | some text =>
      if text.length = 0 then Except.error "PDF extraction returned empty text"
      else Except.ok text

/-- The extract_text stage of the upload route for a PDF file: the empty-buffer
check, the header pre-check, extractTextFromPDF, truncation to
MAX_EXTRACTED_CHARS_PER_FILE characters, and the final empty-or-whitespace-only
check on the (possibly truncated) text. -/
def extractStagePDF (buffer : List Char) (parsed : Option (List Char)) :
    Except String (List Char) :=
  if buffer.length = 0 then Except.error "Empty buffer"
  else if buffer.take 4 ≠ ['%', 'P', 'D', 'F'] then Except.error "Not a PDF header"
  else
    match extractTextFromPDF buffer parsed with
    | Except.error e => Except.error e
    | Except.ok text =>
      let truncated := if text.length > MAX_EXTRACTED_CHARS_PER_FILE then
          text.take MAX_EXTRACTED_CHARS_PER_FILE
        else text
      if truncated.length = 0 ∨ (trimChars truncated).length = 0 then
        Except.error "Empty text extracted"
      else Except.ok truncated

/-- C7: for every input buffer, extraction of a PDF fails with an error when
the bytes are empty, when the first four bytes are not the magic header %PDF,
when the library returns no parse result, or when the parsed text is empty or
whitespace-only; in all remaining cases (stated here for parsed texts within
the extraction character cap, where truncation is the identity) it returns the
parsed text. -/
theorem extractStagePDF_error_conditions (buffer : List Char) (text : List Char)
    (hlen : text.length ≤ MAX_EXTRACTED_CHARS_PER_FILE) :
    (buffer = [] → ∃ e, extractStagePDF buffer (some text) = Except.error e) ∧
    (buffer.take 4 ≠ ['%', 'P', 'D', 'F'] →
      ∃ e, extractStagePDF buffer (some text) = Except.error e) ∧
    (trimChars text = [] →
      ∃ e, extractStagePDF buffer (some text) = Except.error e) ∧
    (∃ e, extractStagePDF buffer none = Except.error e) ∧
    (buffer ≠ [] → buffer.take 4 = ['%', 'P', 'D', 'F'] → trimChars text ≠ [] →
      extractStagePDF buffer (some text) = Except.ok text) := by
  have htr : (if text.length > MAX_EXTRACTED_CHARS_PER_FILE then
      text.take MAX_EXTRACTED_CHARS_PER_FILE else text) = text := by
    rw [if_neg]
    omega
  refine ⟨?_, ?_, ?_, ?_, ?_⟩
  · intro hb
    subst hb
    exact ⟨"Empty buffer", rfl⟩
  · intro hhdr
    unfold extractStagePDF
    by_cases hb : buffer.length = 0
    · rw [if_pos hb]
      exact ⟨"Empty buffer", rfl⟩
    · rw [if_neg hb, if_pos hhdr]
      exact ⟨"Not a PDF header", rfl⟩
  · intro htrim
    unfold extractStagePDF
    by_cases hb : buffer.length = 0
    · rw [if_pos hb]
      exact ⟨"Empty buffer", rfl⟩
    by_cases hhdr : buffer.take 4 ≠ ['%', 'P', 'D', 'F']
    · rw [if_neg hb, if_pos hhdr]
      exact ⟨"Not a PDF header", rfl⟩
    · rw [if_neg hb, if_neg hhdr]
      have hext : extractTextFromPDF buffer (some text) =
          (if text.length = 0 then
            Except.error "PDF extraction returned empty text"
          else Except.ok text) := by
        unfold extractTextFromPDF
        rw [if_neg hb, if_neg hhdr]
      by_cases ht0 : text.length = 0
      · rw [hext, if_pos ht0]
        exact ⟨"PDF extraction returned empty text", rfl⟩
      · rw [hext, if_neg ht0]
        dsimp only
        rw [htr, if_pos (Or.inr (by rw [htrim]; rfl))]
        exact ⟨"Empty text extracted", rfl⟩
  · unfold extractStagePDF
    by_cases hb : buffer.length = 0
    · rw [if_pos hb]
      exact ⟨"Empty buffer", rfl⟩
    by_cases hhdr : buffer.take 4 ≠ ['%', 'P', 'D', 'F']
    · rw [if_neg hb, if_pos hhdr]
      exact ⟨"Not a PDF header", rfl⟩
    · rw [if_neg hb, if_neg hhdr]
      have hext : extractTextFromPDF buffer none =
          Except.error "pdf-parse returned null or undefined" := by
        unfold extractTextFromPDF
        rw [if_neg hb, if_neg hhdr]
      rw [hext]
      exact ⟨"pdf-parse returned null or undefined", rfl⟩
  · intro hbne hhdr htrim
    unfold extractStagePDF
    have hb : ¬buffer.length = 0 := by
      intro h0
      exact hbne (List.length_eq_zero.mp h0)
    have hhdr2 : ¬buffer.take 4 ≠ ['%', 'P', 'D', 'F'] := not_not_intro hhdr
    rw [if_neg hb, if_neg hhdr2]
    have ht0 : ¬text.length = 0 := by
      intro h0
      rw [List.length_eq_zero.mp h0] at htrim
      exact htrim rfl
    have hext : extractTextFromPDF buffer (some text) = Except.ok text := by
      unfold extractTextFromPDF
      rw [if_neg hb, if_neg hhdr2]
      dsimp only
      rw [if_neg ht0]
    rw [hext]
    dsimp only
    rw [htr, if_neg]
    intro hor
    rcases hor with h1 | h2
    · exact ht0 h1
    · exact htrim (List.length_eq_zero.mp h2)

/-- Witness for C7: a well-formed small PDF buffer with a non-blank parsed
text is accepted and returned unchanged. -/
theorem extractStagePDF_error_conditions_witness :
    extractStagePDF "%PDF-1.4 rest of file".data (some " hello world ".data) =
      Except.ok " hello world ".data :=
  (extractStagePDF_error_conditions "%PDF-1.4 rest of file".data
    " hello world ".data (by decide)).2.2.2.2 (by decide) (by decide) (by decide)

/-! ## Document store (schema.sql and the SQL statements of lib/indexing.ts) -/

/-- A row of the documents table: id (uuid, modelled by a number) and the
filename, unique under the documents_filename_unique constraint. -/
structure DocRow where
  id : Nat
  filename : String
deriving DecidableEq, Repr

/-- A row of the chunks table. -/
structure ChunkRow where
  id : Nat
  documentId : Nat
  chunkIndex : Nat
  text : String
  embedding : List ℚ
deriving DecidableEq, Repr

/-- The persistent store: the documents and chunks tables plus a counter
modelling gen_random_uuid (every generated id is fresh). -/
structure Store where
  documents : List DocRow
  chunks : List ChunkRow
  nextId : Nat
deriving DecidableEq, Repr

/-- insertDocument from lib/indexing.ts: INSERT INTO documents (filename)
VALUES ($1) ON CONFLICT (filename) DO UPDATE SET filename = EXCLUDED.filename
RETURNING id, under the uniqueness constraint on filename: when a row with this
filename exists the update leaves it unchanged and returns its id, otherwise a
fresh row is inserted. -/
def insertDocument (db : Store) (filename : String) : Nat × Store :=
  match db.documents.find? (fun d => d.filename = filename) with
  | some d => (d.id, db)
  | none =>
    (db.nextId,
      { db with
        documents := db.documents ++ [⟨db.nextId, filename⟩]
        nextId := db.nextId + 1 })

/-- deleteChunksForDocument from lib/indexing.ts: DELETE FROM chunks WHERE
document_id = $1. -/
def deleteChunksForDocument (db : Store) (documentId : Nat) : Store :=
  { db with chunks := db.chunks.filter (fun c => c.documentId ≠ documentId) }

/-- insertChunksBulk from lib/indexing.ts: a single INSERT of all rows for the
document, each with a fresh id; rows are (chunkIndex, text, embedding). -/
def insertChunksBulk (db : Store) (documentId : Nat)
    (rows : List (Nat × String × List ℚ)) : Store :=
  { db with
    chunks := db.chunks ++ rows.enum.map (fun q =>
      (⟨db.nextId + q.1, documentId, q.2.1, q.2.2.1, q.2.2.2⟩ : ChunkRow))
    nextId := db.nextId + rows.length }

/-- The per-file persistence sequence of the upload route: upsert the document
row by filename, delete the old chunks of that document, bulk insert the new
chunks indexed 0, 1, ... in order, as chunksData is built there. -/
def ingestFile (db : Store) (filename : String)
    (chunksToProcess : List (String × List ℚ)) : Nat × Store :=
  ((insertDocument db filename).1,
    insertChunksBulk
      (deleteChunksForDocument (insertDocument db filename).2
        (insertDocument db filename).1)
      (insertDocument db filename).1
      (chunksToProcess.enum.map (fun p => (p.1, p.2.1, p.2.2))))

/-- Well-formedness from the schema: filenames are unique among document rows
(the documents_filename_unique constraint). -/
def StoreWF (db : Store) : Prop :=
  db.documents.Pairwise (fun a b => a.filename ≠ b.filename)

/-! ## Lemmas about the store -/

theorem insertDocument_eq_found (db : Store) (f : String) (d : DocRow)
    (h : db.documents.find? (fun x => x.filename = f) = some d) :
    insertDocument db f = (d.id, db) := by
  unfold insertDocument
  rw [h]

theorem insertDocument_eq_new (db : Store) (f : String)
    (h : db.documents.find? (fun x => x.filename = f) = none) :
    insertDocument db f =
      (db.nextId,
        { db with
          documents := db.documents ++ [⟨db.nextId, f⟩]
          nextId := db.nextId + 1 }) := by
  unfold insertDocument
  rw [h]

/-- Deleting the chunks of a document and bulk inserting new rows for it leaves
exactly the new rows as the chunks of that document. -/
theorem filter_delete_insert (chunks0 : List ChunkRow) (id nid : Nat)
    (rows : List (Nat × String × List ℚ)) :
    ((chunks0.filter (fun ch => ch.documentId ≠ id) ++
        rows.enum.map (fun q =>
          (⟨nid + q.1, id, q.2.1, q.2.2.1, q.2.2.2⟩ : ChunkRow))).filter
      (fun ch => ch.documentId = id)) =
    rows.enum.map (fun q => ⟨nid + q.1, id, q.2.1, q.2.2.1, q.2.2.2⟩) := by
  rw [List.filter_append]
  have h1 : (chunks0.filter (fun ch => ch.documentId ≠ id)).filter
      (fun ch => ch.documentId = id) = [] := by
    rw [List.filter_eq_nil_iff]
    intro a ha
    have hne := List.of_mem_filter ha
    simp only [decide_eq_true_eq] at hne ⊢
    exact hne
  have h2 : (rows.enum.map (fun q =>
      (⟨nid + q.1, id, q.2.1, q.2.2.1, q.2.2.2⟩ : ChunkRow))).filter
      (fun ch => ch.documentId = id) =
      rows.enum.map (fun q => ⟨nid + q.1, id, q.2.1, q.2.2.1, q.2.2.2⟩) := by
    rw [List.filter_eq_self]
    intro a ha
    obtain ⟨q, hq, rfl⟩ := List.mem_map.mp ha
    simp
  rw [h1, h2, List.nil_append]

/-- The (chunkIndex, text) projection of the rows ingestFile persists for a
document equals the enumeration of the input chunks, for every prior store. -/
theorem ingestFile_final_chunks (db : Store) (f : String)
    (c : List (String × List ℚ)) :
    ((ingestFile db f c).2.chunks.filter
        (fun ch => ch.documentId = (ingestFile db f c).1)).map
      (fun ch => (ch.chunkIndex, ch.text)) =
    c.enum.map (fun p => (p.1, p.2.1)) := by
  have key : ∀ (db1 : Store) (id : Nat),
      ((insertChunksBulk (deleteChunksForDocument db1 id) id
          (c.enum.map (fun p => (p.1, p.2.1, p.2.2)))).chunks.filter
        (fun ch => ch.documentId = id)).map (fun ch => (ch.chunkIndex, ch.text)) =
      c.enum.map (fun p => (p.1, p.2.1)) := by
    intro db1 id
    unfold insertChunksBulk deleteChunksForDocument
    dsimp only
    rw [filter_delete_insert]
    rw [List.map_map]
    have hcomp : ((fun ch : ChunkRow => (ch.chunkIndex, ch.text)) ∘
        (fun q : Nat × Nat × String × List ℚ =>
          (⟨db1.nextId + q.1, id, q.2.1, q.2.2.1, q.2.2.2⟩ : ChunkRow))) =
        ((fun r : Nat × String × List ℚ => (r.1, r.2.1)) ∘ Prod.snd) := rfl
    rw [hcomp, ← List.map_map, List.enum_map_snd, List.map_map]
    rfl
  rcases hfind : db.documents.find? (fun x => x.filename = f) with _ | d
  · rw [ingestFile, insertDocument_eq_new db f hfind]
    exact key _ _
  · rw [ingestFile, insertDocument_eq_found db f d hfind]
    exact key _ _

/-- In a list of documents with pairwise distinct filenames that contains a row
with the given filename, filtering by that filename finds exactly one row. -/
theorem filter_filename_length_one :
    ∀ (l : List DocRow) (f : String),
      l.Pairwise (fun a b => a.filename ≠ b.filename) →
      ∀ d ∈ l, d.filename = f →
      (l.filter (fun x => x.filename = f)).length = 1
  | [], _, _, d, hd, _ => absurd hd (List.not_mem_nil d)
  | a :: l, f, hpw, d, hd, hdf => by
    rcases List.mem_cons.mp hd with rfl | hdl
    · rw [List.filter_cons, if_pos (by simp [hdf])]
      have hrest : l.filter (fun x => x.filename = f) = [] := by
        rw [List.filter_eq_nil_iff]
        intro b hb
        have := (List.pairwise_cons.mp hpw).1 b hb
        simp only [decide_eq_true_eq]
        rw [← hdf]
        exact fun he => this he.symm
      rw [hrest]
      rfl
    · have hne := (List.pairwise_cons.mp hpw).1 d hdl
      rw [List.filter_cons, if_neg (by simp; rw [← hdf]; exact fun he => hne he)]
      exact filter_filename_length_one l f (List.pairwise_cons.mp hpw).2 d hdl hdf

/-- C6: uploading the same filename twice. The second upsert returns the same
document id as the first; exactly one document row carries the filename; and
the chunk set of the document after the second upload is exactly the second
chunk list, indexed 0, 1, ... (so the first chunk set is fully replaced: no
chunk-count leakage, and no duplicate chunkIndex among the chunks of the
document owning the filename). -/
theorem ingestFile_idempotent_replace (db : Store) (f : String)
    (c1 c2 : List (String × List ℚ)) (hwf : StoreWF db) :
    (ingestFile (ingestFile db f c1).2 f c2).1 = (ingestFile db f c1).1 ∧
    (((ingestFile (ingestFile db f c1).2 f c2).2.documents.filter
        (fun d => d.filename = f)).length = 1) ∧
    (((ingestFile (ingestFile db f c1).2 f c2).2.chunks.filter
        (fun ch => ch.documentId = (ingestFile db f c1).1)).map
      (fun ch => (ch.chunkIndex, ch.text)) =
      c2.enum.map (fun p => (p.1, p.2.1))) ∧
    ((ingestFile (ingestFile db f c1).2 f c2).2.chunks.filter
        (fun ch => ch.documentId = (ingestFile db f c1).1)).length = c2.length ∧
    ((ingestFile (ingestFile db f c1).2 f c2).2.chunks.filter
        (fun ch => ch.documentId = (ingestFile db f c1).1)).Pairwise
      (fun a b => a.chunkIndex ≠ b.chunkIndex) := by
  have hdup : ∀ (dbx : Store),
      dbx.documents = (ingestFile db f c1).2.documents →
      (ingestFile dbx f c2).1 = (ingestFile db f c1).1 := by
    intro dbx hdocs
    rcases hfind : db.documents.find? (fun x => x.filename = f) with _ | d
    · have h1 := insertDocument_eq_new db f hfind
      have hdocs1 : (ingestFile db f c1).2.documents =
          db.documents ++ [⟨db.nextId, f⟩] := by
        rw [ingestFile, h1]
        rfl
      have hfind2 : dbx.documents.find? (fun x => x.filename = f) =
          some ⟨db.nextId, f⟩ := by
        rw [hdocs, hdocs1, List.find?_append, hfind, Option.none_or]
        exact List.find?_cons_of_pos _ (by simp)
      rw [ingestFile, insertDocument_eq_found dbx f _ hfind2,
        ingestFile, h1]
    · have h1 := insertDocument_eq_found db f d hfind
      have hdocs1 : (ingestFile db f c1).2.documents = db.documents := by
        rw [ingestFile, h1]
        rfl
      have hfind2 : dbx.documents.find? (fun x => x.filename = f) = some d := by
        rw [hdocs, hdocs1]
        exact hfind
      rw [ingestFile, insertDocument_eq_found dbx f d hfind2, ingestFile, h1]
  have hid : (ingestFile (ingestFile db f c1).2 f c2).1 = (ingestFile db f c1).1 :=
    hdup _ rfl
  have hmap := ingestFile_final_chunks (ingestFile db f c1).2 f c2
  rw [hid] at hmap
  have hlen : ((ingestFile (ingestFile db f c1).2 f c2).2.chunks.filter
      (fun ch => ch.documentId = (ingestFile db f c1).1)).length = c2.length := by
    have := congrArg List.length hmap
    rw [List.length_map, List.length_map, List.enum_length] at this
    exact this
  have hpw : ((ingestFile (ingestFile db f c1).2 f c2).2.chunks.filter
      (fun ch => ch.documentId = (ingestFile db f c1).1)).Pairwise
      (fun a b => a.chunkIndex ≠ b.chunkIndex) := by
    have hidx : ((ingestFile (ingestFile db f c1).2 f c2).2.chunks.filter
        (fun ch => ch.documentId = (ingestFile db f c1).1)).map
        (fun ch => ch.chunkIndex) = List.range c2.length := by
      have e1 := congrArg (List.map Prod.fst) hmap
      rw [List.map_map, List.map_map] at e1
      have e2 : (Prod.fst ∘ fun p : Nat × String × List ℚ => (p.1, p.2.1)) =
          Prod.fst := rfl
      rw [e2, List.enum_map_fst] at e1
      exact e1
    have hnodup : (((ingestFile (ingestFile db f c1).2 f c2).2.chunks.filter
        (fun ch => ch.documentId = (ingestFile db f c1).1)).map
        (fun ch => ch.chunkIndex)).Nodup := by
      rw [hidx]
      exact List.nodup_range c2.length
    exact List.pairwise_map.mp hnodup
  have hdocscount : (((ingestFile (ingestFile db f c1).2 f c2).2.documents.filter
      (fun d => d.filename = f)).length = 1) := by
    rcases hfind : db.documents.find? (fun x => x.filename = f) with _ | d
    · have h1 := insertDocument_eq_new db f hfind
      have hdocs1 : (ingestFile db f c1).2.documents =
          db.documents ++ [⟨db.nextId, f⟩] := by
        rw [ingestFile, h1]
        rfl
      have hfind2 : (ingestFile db f c1).2.documents.find?
          (fun x => x.filename = f) = some ⟨db.nextId, f⟩ := by
        rw [hdocs1, List.find?_append, hfind, Option.none_or]
        exact List.find?_cons_of_pos _ (by simp)
      have hdocs2 : (ingestFile (ingestFile db f c1).2 f c2).2.documents =
          db.documents ++ [⟨db.nextId, f⟩] := by
        rw [ingestFile, insertDocument_eq_found _ f _ hfind2]
        exact hdocs1
      rw [hdocs2, List.filter_append]
      have hz : db.documents.filter (fun x => x.filename = f) = [] := by
        rw [List.filter_eq_nil_iff]
        exact List.find?_eq_none.mp hfind
      rw [hz, List.nil_append]
      simp
    · have h1 := insertDocument_eq_found db f d hfind
      have hdocs1 : (ingestFile db f c1).2.documents = db.documents := by
        rw [ingestFile, h1]
        rfl
      have hfind2 : (ingestFile db f c1).2.documents.find?
          (fun x => x.filename = f) = some d := by
        rw [hdocs1]
        exact hfind
      have hdocs2 : (ingestFile (ingestFile db f c1).2 f c2).2.documents =
          db.documents := by
        rw [ingestFile, insertDocument_eq_found _ f d hfind2]
        exact hdocs1
      rw [hdocs2]
      exact filter_filename_length_one db.documents f hwf d
        (List.mem_of_find?_eq_some hfind)
        (by simpa using List.find?_some hfind)
  exact ⟨hid, hdocscount, hmap, hlen, hpw⟩

/-- Witness for C6 on a concrete store: re-uploading a.md with a two-chunk
body replaces the single-chunk body of the first upload. -/
theorem ingestFile_idempotent_replace_witness :
    (ingestFile (ingestFile ⟨[], [], 0⟩ "a.md" [("x", [0])]).2 "a.md"
        [("y", [0]), ("z", [1])]).1 =
      (ingestFile (⟨[], [], 0⟩ : Store) "a.md" [("x", [0])]).1 ∧
    (((ingestFile (ingestFile ⟨[], [], 0⟩ "a.md" [("x", [0])]).2 "a.md"
        [("y", [0]), ("z", [1])]).2.documents.filter
        (fun d => d.filename = "a.md")).length = 1) ∧
    (((ingestFile (ingestFile ⟨[], [], 0⟩ "a.md" [("x", [0])]).2 "a.md"
        [("y", [0]), ("z", [1])]).2.chunks.filter
        (fun ch => ch.documentId =
          (ingestFile (⟨[], [], 0⟩ : Store) "a.md" [("x", [0])]).1)).map
      (fun ch => (ch.chunkIndex, ch.text)) =
      ([("y", [(0 : ℚ)]), ("z", [1])] : List (String × List ℚ)).enum.map
        (fun p => (p.1, p.2.1))) ∧
    ((ingestFile (ingestFile ⟨[], [], 0⟩ "a.md" [("x", [0])]).2 "a.md"
        [("y", [0]), ("z", [1])]).2.chunks.filter
        (fun ch => ch.documentId =
          (ingestFile (⟨[], [], 0⟩ : Store) "a.md" [("x", [0])]).1)).length = 2 ∧
    ((ingestFile (ingestFile ⟨[], [], 0⟩ "a.md" [("x", [0])]).2 "a.md"
        [("y", [0]), ("z", [1])]).2.chunks.filter
        (fun ch => ch.documentId =
          (ingestFile (⟨[], [], 0⟩ : Store) "a.md" [("x", [0])]).1)).Pairwise
      (fun a b => a.chunkIndex ≠ b.chunkIndex) :=
  ingestFile_idempotent_replace ⟨[], [], 0⟩ "a.md" [("x", [0])]
    [("y", [0]), ("z", [1])] List.Pairwise.nil

end Runbook
